import Mathlib

/-!
Verification of the screen-reconstruction engine of Kali-Trace
(`logger.py`): the tokenizer, the VT100Lite state machine, the chunk
boundary buffer, and the line logger, shallowly embedded as executable
Lean functions over `List Char`.
-/

namespace KaliTrace

/-- The escape character `\x1b`. -/
def escCh : Char := '\x1b'

/-- The bell character `\x07`. -/
def belCh : Char := '\x07'

/-- The backspace character `\x08`. -/
def bsCh : Char := '\x08'

/-- The backtick character (CSI cursor-horizontal final byte variant). -/
def btickCh : Char := Char.ofNat 96

/-- The characters Python's `str.rstrip()` and `int()` treat as
whitespace (`str.isspace`): the ASCII whitespace and separators, and
the Unicode space characters. -/
def isPySpace (c : Char) : Bool :=
  c = ' ' || c = '\t' || c = '\n' || c = '\r' || c = '\x0b' || c = '\x0c' ||
  c = '\x1c' || c = '\x1d' || c = '\x1e' || c = '\x1f' || c = '\x85' ||
  c = '\xa0' || c = '\u1680' || ('\u2000' ≤ c && c ≤ '\u200a') ||
  c = '\u2028' || c = '\u2029' || c = '\u202f' || c = '\u205f' || c = '\u3000'

/-- Strip trailing whitespace, as Python's `str.rstrip()`. -/
def rstrip (l : List Char) : List Char :=
  (l.reverse.dropWhile isPySpace).reverse

/-- Strip leading and trailing whitespace, as Python's `str.strip()`
(used implicitly by `int()` on its argument). -/
def pyStrip (l : List Char) : List Char :=
  ((l.dropWhile isPySpace).reverse.dropWhile isPySpace).reverse

/-- Value of a list of decimal digit characters. -/
def digitsVal (l : List Char) : Nat :=
  l.foldl (fun a c => a * 10 + (c.toNat - 48)) 0

/-- Python's `int(s)` on a decimal string: optional surrounding
whitespace, optional sign, then at least one digit; `none` models the
`ValueError` that the source catches with `except: pass`. -/
def pyInt (l : List Char) : Option Int :=
  match pyStrip l with
  | '+' :: ds =>
      if ds ≠ [] ∧ ds.all Char.isDigit then some (digitsVal ds) else none
  | '-' :: ds =>
      if ds ≠ [] ∧ ds.all Char.isDigit then some (-(digitsVal ds : Int)) else none
  | ds =>
      if ds ≠ [] ∧ ds.all Char.isDigit then some (digitsVal ds) else none

/-! ## The tokenizer

`logger.py` splits each chunk with
`re.split` on the pattern
`(\x1b\[[0-9;?]*[\x40-\x7e])|(\x1b][0-9]*;.*?(?:\x07|\x1b\\))|(\x1b[=@>78()EHM])`.
We model the resulting list of parts (text parts interleaved with
matched tokens, in order, empty text parts included) by an explicit
left-to-right scan.  The character classes `[0-9;?]` and `[\x40-\x7e]`
are disjoint, so the CSI alternative is deterministic maximal munch;
the OSC body is lazy (`.*?`), i.e. it ends at the first bell or
escape-backslash, and `.` does not match a newline. -/

/-- Characters allowed in a CSI parameter run: `[0-9;?]`
(code points 48-57, 59 and 63). -/
def isCsiParam (c : Char) : Bool :=
  (48 ≤ c.toNat && c.toNat ≤ 57) || c = ';' || c = '?'

/-- CSI final bytes: the printable range `[\x40-\x7e]` (`@` to `~`,
code points 64-126). -/
def isCsiFinal (c : Char) : Bool :=
  64 ≤ c.toNat && c.toNat ≤ 126

/-- The second characters of the recognised two-character escapes:
`[=@>78()EHM]`. -/
def isTwoCharEsc (c : Char) : Bool :=
  c = '=' || c = '@' || c = '>' || c = '7' || c = '8' ||
  c = '(' || c = ')' || c = 'E' || c = 'H' || c = 'M'

/-- Try to match the CSI alternative `\x1b\[[0-9;?]*[\x40-\x7e]` at the
head of the input; on success return the matched token and the rest.
(The classes `[0-9;?]` and `[\x40-\x7e]` are disjoint, so the greedy
star never needs to backtrack.) -/
def matchCSI : List Char → Option (List Char × List Char)
  | a :: b :: rest =>
      if a = '\x1b' ∧ b = '[' then
        match rest.dropWhile isCsiParam with
        | f :: r2 =>
            if isCsiFinal f then
              some ('\x1b' :: '[' :: (rest.takeWhile isCsiParam ++ [f]), r2)
            else none
        | [] => none
      else none
  | _ => none

/-- Lazy OSC body: consume non-newline characters up to (and including)
the first `\x07` or `\x1b\\` terminator (`.` does not match `\n`);
fail if no terminator occurs. -/
def oscBody : List Char → Option (List Char × List Char)
  | [] => none
  | c :: r =>
      if c = '\x07' then some (['\x07'], r)
      else if c = '\x1b' ∧ r.head? = some '\\' then
        some (['\x1b', '\\'], r.tail)
      else if c = '\n' then none
      else (oscBody r).map (fun p => (c :: p.1, p.2))

/-- Try to match the OSC alternative `\x1b][0-9]*;.*?(?:\x07|\x1b\\)`
at the head of the input. -/
def matchOSC : List Char → Option (List Char × List Char)
  | a :: b :: rest =>
      if a = '\x1b' ∧ b = ']' then
        match rest.dropWhile Char.isDigit with
        | s0 :: r2 =>
            if s0 = ';' then
              (oscBody r2).map
                (fun p =>
                  ('\x1b' :: ']' :: (rest.takeWhile Char.isDigit ++ ';' :: p.1),
                   p.2))
            else none
        | [] => none
      else none
  | _ => none

/-- Try to match the two-character escape alternative `\x1b[=@>78()EHM]`. -/
def matchTwo : List Char → Option (List Char × List Char)
  | a :: b :: r =>
      if a = '\x1b' ∧ isTwoCharEsc b then some (['\x1b', b], r) else none
  | _ => none

/-- Try the three regex alternatives in order at the head of the input. -/
def matchToken (l : List Char) : Option (List Char × List Char) :=
  match matchCSI l with
  | some p => some p
  | none =>
    match matchOSC l with
    | some p => some p
    | none => matchTwo l

/-- Fuelled left-to-right scan producing the `re.split` part list:
`acc` is the reversed text collected since the last match. -/
def scanParts : Nat → List Char → List Char → List (List Char)
  | 0, acc, rest => [acc.reverse ++ rest]
  | _ + 1, acc, [] => [acc.reverse]
  | fuel + 1, acc, c :: r =>
      if c = '\x1b' then
        match matchToken (c :: r) with
        | some (tok, rest) => acc.reverse :: tok :: scanParts fuel [] rest
        | none => scanParts fuel (c :: acc) r
      else scanParts fuel (c :: acc) r

/-- The parts `re.split(token_pattern, chunk)` yields, in order:
text parts (possibly empty) interleaved with matched tokens. -/
def splitParts (chunk : List Char) : List (List Char) :=
  scanParts (chunk.length + 1) [] chunk

/-! ## The VT100Lite state machine -/

/-- The mutable state of `VT100Lite` relevant to reconstruction
(`last_logged_line` lives with the logger model below). -/
structure VTState where
  cursor_x : Nat
  buffer : List Char
  in_alt_screen : Bool
  bracketed_paste_mode : Bool
deriving Repr, DecidableEq

/-- The state `VT100Lite` starts in. -/
def initVT : VTState :=
  { cursor_x := 0, buffer := [], in_alt_screen := false,
    bracketed_paste_mode := false }

/-- The synthetic line appended on entering the alternate screen. -/
def enterAltLine : String := "\n[LOG: Entered Interactive Mode]"

/-- The synthetic line appended on exiting the alternate screen. -/
def exitAltLine : String := "\n[LOG: Exited Interactive Mode]"

/-- `VT100Lite._handle_csi`: dispatch on the (purported) CSI part. -/
def handleCSI (st : VTState) (seq : List Char) : VTState × List String :=
  if seq = ("\x1b[?1049h").toList ∨ seq = ("\x1b[?47h").toList then
    ({ st with in_alt_screen := true }, [enterAltLine])
  else if seq = ("\x1b[?1049l").toList ∨ seq = ("\x1b[?47l").toList then
    ({ st with in_alt_screen := false }, [exitAltLine])
  else if seq = ("\x1b[?2004h").toList then
    ({ st with bracketed_paste_mode := true }, [])
  else if seq = ("\x1b[?2004l").toList then
    ({ st with bracketed_paste_mode := false }, [])
  else if seq.getLast? = some 'K' then
    let mode : Int :=
      if seq.length > 3 then (pyInt (seq.drop 2).dropLast).getD 0 else 0
    if mode = 0 then ({ st with buffer := st.buffer.take st.cursor_x }, [])
    else if mode = 2 then ({ st with buffer := [], cursor_x := 0 }, [])
    else (st, [])
  else if seq.getLast? = some 'G' ∨ seq.getLast? = some btickCh then
    match pyInt (seq.drop 2).dropLast with
    | some col => ({ st with cursor_x := (col - 1).toNat }, [])
    | none => (st, [])
  else if (seq.getLast? = some 'A' ∨ seq.getLast? = some 'B' ∨
           seq.getLast? = some 'H' ∨ seq.getLast? = some 'f') ∧
          st.in_alt_screen then
    let ls := rstrip st.buffer
    ({ st with buffer := [], cursor_x := 0 },
     if ls ≠ [] then [String.mk ls] else [])
  else (st, [])

/-- One character of `VT100Lite._handle_text`. -/
def textStep (st : VTState) (c : Char) : VTState × List String :=
  if c = '\r' then
    if st.in_alt_screen then
      let ls := rstrip st.buffer
      ({ st with buffer := [], cursor_x := 0 },
       if ls ≠ [] then [String.mk ls] else [])
    else ({ st with cursor_x := 0 }, [])
  else if c = '\n' then
    let ls := rstrip st.buffer
    ({ st with buffer := [], cursor_x := 0 },
     if ls ≠ [] then [String.mk ls] else [])
  else if c = '\x08' then
    ({ st with cursor_x := st.cursor_x - 1 }, [])
  else if c = '\x07' then (st, [])
  else
    let b1 :=
      if st.buffer.length ≤ st.cursor_x then
        st.buffer ++ List.replicate (st.cursor_x - st.buffer.length + 1) ' '
      else st.buffer
    ({ st with buffer := b1.set st.cursor_x c, cursor_x := st.cursor_x + 1 }, [])

/-- `VT100Lite._handle_text`: process a text part character by
character, accumulating completed lines. -/
def handleText (st : VTState) (text : List Char) : VTState × List String :=
  text.foldl
    (fun p c =>
      let q := textStep p.1 c
      (q.1, p.2 ++ q.2))
    (st, [])

/-- The per-part dispatch of `VT100Lite.process`: empty parts are
skipped; parts opening with `\x1b[` go to the CSI handler; parts
opening with `\x1b]` (OSC) or a bare `\x1b` are dropped whole;
everything else is text. -/
def processPart (st : VTState) (part : List Char) : VTState × List String :=
  match part with
  | [] => (st, [])
  | a :: rest =>
      if a = '\x1b' then
        match rest with
        | b :: _ =>
            if b = '[' then handleCSI st part
            else (st, [])
        | [] => (st, [])
      else handleText st part

/-- Feed a list of parts to the dispatcher in order, collecting
completed lines. -/
def processParts (st : VTState) (parts : List (List Char)) :
    VTState × List String :=
  parts.foldl
    (fun p part =>
      let q := processPart p.1 part
      (q.1, p.2 ++ q.2))
    (st, [])

/-- `VT100Lite.process`: tokenize the chunk and feed every part to the
dispatcher, collecting completed lines. -/
def process (st : VTState) (chunk : List Char) : VTState × List String :=
  processParts st (splitParts chunk)

/-- `VT100Lite.flush`: the returned lines; the method reads the state
and mutates nothing. -/
def flushLines (st : VTState) : List String :=
  if st.buffer ≠ [] then [String.mk (rstrip st.buffer)] else []

/-- `VT100Lite.flush` as a state transformer, making the (absent)
state effect explicit. -/
def flushM (st : VTState) : VTState × List String :=
  (st, flushLines st)

/-! ## The chunk boundary buffer and the session loop -/

/-- Index of the last occurrence of the escape character
(`str.rfind('\x1B')`, `none` for Python's `-1`). -/
def rfindEsc : List Char → Option Nat
  | [] => none
  | c :: r =>
      match rfindEsc r with
      | some k => some (k + 1)
      | none => if c = '\x1b' then some 0 else none

/-- One round of the chunk-boundary heuristic in `main`: append the new
text to the pending buffer, then split it into the part released for
tokenizing and the new pending buffer. -/
def chunkStep (pending t : List Char) : List Char × List Char :=
  let b := pending ++ t
  match rfindEsc b with
  | none => (b, [])
  | some k => if b.length - k > 256 then (b, []) else (b.take k, b.drop k)

/-- The reconstruction state carried across reads of the session loop. -/
structure SessState where
  vt : VTState
  pending : List Char
deriving Repr, DecidableEq

/-- One iteration of the session loop's reconstruction work for one
decoded chunk: run the boundary heuristic, and feed the released part
(if non-empty, per `if to_process:`) to the state machine. -/
def feedChunk (s : SessState) (chunk : List Char) : SessState × List String :=
  let p := chunkStep s.pending chunk
  if p.1 ≠ [] then
    let q := process s.vt p.1
    ({ vt := q.1, pending := p.2 }, q.2)
  else ({ vt := s.vt, pending := p.2 }, [])

/-- Feed a list of chunks through the session loop, collecting the
completed lines in order. -/
def runChunks (s : SessState) (chunks : List (List Char)) :
    SessState × List String :=
  chunks.foldl
    (fun p chunk =>
      let q := feedChunk p.1 chunk
      (q.1, p.2 ++ q.2))
    (s, [])

/-- A whole session over the given chunks, ending with the final
processing of any leftover pending text
(`if clean_log_buffer: ... vt.process(clean_log_buffer)`); returns the
final machine state and every completed line in order. -/
def runSession (chunks : List (List Char)) : VTState × List String :=
  let p := runChunks { vt := initVT, pending := [] } chunks
  if p.1.pending ≠ [] then
    let q := process p.1.vt p.1.pending
    (q.1, p.2 ++ q.2)
  else (p.1.vt, p.2)

/-! ## The line logger -/

/-- The main loop's deduplicating writer: starting from
`last_logged_line`, return the records actually appended to the clean
log for a list of completed lines (a line equal to the last logged one
is skipped, otherwise it is written and becomes the last logged). -/
def dedupWrite : Option String → List String → List String
  | _, [] => []
  | last, l :: rest =>
      if some l = last then dedupWrite last rest
      else l :: dedupWrite (some l) rest

/-- The lines written by the `finally:` block at session end:
`vt.flush()`, then the processing of any leftover pending text, then
`vt.flush()` again — all appended to the clean log with no
deduplication. -/
def sessionEndLines (vt : VTState) (pending : List Char) : List String :=
  let t1 := flushLines vt
  let p := if pending ≠ [] then process vt pending else (vt, [])
  t1 ++ p.2 ++ flushLines p.1

/-- The full clean log of a session over the given chunks: the main
loop writes each chunk's completed lines through the deduplicator
(threading `last_logged_line`), and the session-end block appends its
lines unconditionally. -/
def cleanLog (chunks : List (List Char)) : List String :=
  let step := fun (a : SessState × Option String × List String) chunk =>
    let q := feedChunk a.1 chunk
    let w := dedupWrite a.2.1 q.2
    (q.1, (w.getLast? <|> a.2.1), a.2.2 ++ w)
  let r := chunks.foldl step ({ vt := initVT, pending := [] }, none, [])
  r.2.2 ++ sessionEndLines r.1.vt r.1.pending

/-- A plain text character: one that none of the special branches of
`_handle_text` or the tokenizer intercepts. -/
def isPlainChar (c : Char) : Bool :=
  !(c = escCh || c = '\r' || c = '\n' || c = '\x08' || c = '\x07')

/-- The input built from text segments, each terminated by a line feed. -/
def joinLF (segs : List (List Char)) : List Char :=
  (segs.map (fun s => s ++ [ '\n'])).flatten

/-- The branch condition of the chunk boundary heuristic: a released
chunk either has no escape character or ends within 256 characters of
its last one. -/
def splitWithinWindow (t : List Char) : Bool :=
  match rfindEsc t with
  | none => true
  | some k => decide (t.length - k ≤ 256)

/-- Streams in which every escape character opens a complete CSI
sequence (escape, `[`, parameter bytes, one final byte): the class of
inputs for which splitting at a chunk boundary is harmless. -/
inductive CsiStream : List Char → Prop
  | nil : CsiStream []
  | ch (c : Char) (s : List Char) : c ≠ escCh → CsiStream s →
      CsiStream (c :: s)
  | tok (ps : List Char) (f : Char) (s : List Char) :
      (∀ p ∈ ps, isCsiParam p = true) → isCsiFinal f = true →
      CsiStream s → CsiStream (escCh :: '[' :: (ps ++ f :: s))

/-! ## Helper lemmas -/

/-- Accumulator shift for `handleText`: folding with lines already
collected prepends them to the result. -/
theorem handleText_acc (t : List Char) (st : VTState) (acc : List String) :
    t.foldl
      (fun p c =>
        let q := textStep p.1 c
        (q.1, p.2 ++ q.2))
      (st, acc) =
    ((handleText st t).1, acc ++ (handleText st t).2) := by
  induction t generalizing st acc with
  | nil => simp [handleText]
  | cons c r ih =>
      simp only [handleText, List.foldl_cons]
      rw [ih (textStep st c).1 (acc ++ (textStep st c).2),
          ih (textStep st c).1 ([] ++ (textStep st c).2)]
      simp

/-- `handleText` over a concatenation runs the two pieces in sequence. -/
theorem handleText_append (st : VTState) (a b : List Char) :
    handleText st (a ++ b) =
      ((handleText (handleText st a).1 b).1,
       (handleText st a).2 ++ (handleText (handleText st a).1 b).2) := by
  unfold handleText
  rw [List.foldl_append]
  have h := handleText_acc b (handleText st a).1 (handleText st a).2
  rw [show a.foldl
      (fun p c =>
        let q := textStep p.1 c
        (q.1, p.2 ++ q.2))
      (st, []) = handleText st a from rfl]
  exact h

/-- `rfindEsc` finds nothing exactly on escape-free text. -/
theorem rfindEsc_eq_none_iff (l : List Char) :
    rfindEsc l = none ↔ ∀ c ∈ l, c ≠ escCh := by
  induction l with
  | nil => simp [rfindEsc]
  | cons c r ih =>
      simp only [rfindEsc]
      cases h : rfindEsc r with
      | some k => simp only [h] at ih; constructor
                  · intro hc; simp at hc
                  · intro hc
                    exfalso
                    have : ∀ x ∈ r, x ≠ escCh := fun x hx => hc x (List.mem_cons_of_mem _ hx)
                    rw [← ih] at this
                    simp [h] at this
      | none =>
          have hr : ∀ x ∈ r, x ≠ escCh := ih.mp h
          by_cases hc : c = '\x1b'
          · simp only [hc, if_pos rfl]
            constructor
            · intro hx; cases hx
            · intro hx; exact absurd rfl (hx '\x1b' (List.mem_cons_self _ _))
          · simp only [if_neg hc]
            constructor
            · intro _ x hx
              rcases List.mem_cons.mp hx with h1 | h1
              · subst h1; exact hc
              · exact hr x h1
            · intro _; trivial

/-- A no-escape scan never matches, so the whole input is one text part. -/
theorem scanParts_noesc (rest : List Char) :
    ∀ fuel acc, rest.length < fuel → (∀ c ∈ rest, c ≠ escCh) →
      scanParts fuel acc rest = [acc.reverse ++ rest] := by
  induction rest with
  | nil =>
      intro fuel acc hf _
      match fuel, hf with
      | fuel + 1, _ => simp [scanParts]
  | cons c r ih =>
      intro fuel acc hf hesc
      match fuel, hf with
      | fuel + 1, hf =>
          have hc : c ≠ escCh := hesc c (List.mem_cons_self _ _)
          have hr : ∀ x ∈ r, x ≠ escCh := fun x hx => hesc x (List.mem_cons_of_mem _ hx)
          have hlen : r.length < fuel := by
            simp only [List.length_cons] at hf; omega
          simp only [scanParts, if_neg (show ¬(c = '\x1b') from hc)]
          rw [ih fuel (c :: acc) hlen hr]
          simp

/-- On escape-free input the tokenizer yields a single text part. -/
theorem splitParts_noesc (s : List Char) (h : ∀ c ∈ s, c ≠ escCh) :
    splitParts s = [s] := by
  unfold splitParts
  rw [scanParts_noesc s (s.length + 1) [] (by omega) h]
  simp

/-- On escape-free input `process` is exactly `_handle_text`. -/
theorem process_noesc (st : VTState) (s : List Char) (h : ∀ c ∈ s, c ≠ escCh) :
    process st s = handleText st s := by
  unfold process processParts
  rw [splitParts_noesc s h]
  cases s with
  | nil => simp [processPart, handleText]
  | cons c r =>
      have hc : c ≠ '\x1b' := h c (List.mem_cons_self _ _)
      simp [processPart, if_neg hc, handleText_acc]

/-- `rfindEsc` returns the position of the last escape character. -/
theorem rfindEsc_eq_last (b : List Char) :
    ∀ k, b[k]? = some escCh →
      (∀ j, k < j → b[j]? ≠ some escCh) →
      rfindEsc b = some k := by
  induction b with
  | nil => intro k hk _; simp at hk
  | cons c r ih =>
      intro k hk hafter
      cases k with
      | zero =>
          have hc : c = escCh := by simpa using hk
          have hr : ∀ x ∈ r, x ≠ escCh := by
            intro x hx hxe
            rcases List.mem_iff_getElem?.mp hx with ⟨i, hi⟩
            exact hafter (i + 1) (by omega) (by simp [hi, hxe])
          have hnone : rfindEsc r = none := (rfindEsc_eq_none_iff r).mpr hr
          simp [rfindEsc, hnone, hc, escCh]
      | succ k =>
          have hk' : r[k]? = some escCh := by simpa using hk
          have hafter' : ∀ j, k < j → r[j]? ≠ some escCh := by
            intro j hj
            have := hafter (j + 1) (by omega)
            simpa using this
          have := ih k hk' hafter'
          simp [rfindEsc, this]

/-- `handleText` on one character, unfolded. -/
theorem handleText_cons (st : VTState) (c : Char) (r : List Char) :
    handleText st (c :: r) =
      ((handleText (textStep st c).1 r).1,
       (textStep st c).2 ++ (handleText (textStep st c).1 r).2) := by
  simp only [handleText, List.foldl_cons]
  exact (handleText_acc r (textStep st c).1 ([] ++ (textStep st c).2)).trans
    (by simp [handleText])

/-- Writing a plain character with the cursor at the end of the buffer
appends it and advances the cursor. -/
theorem textStep_write (buf : List Char) (a b : Bool) (c : Char)
    (h : isPlainChar c = true) :
    textStep { cursor_x := buf.length, buffer := buf, in_alt_screen := a,
               bracketed_paste_mode := b } c =
      ({ cursor_x := buf.length + 1, buffer := buf ++ [c],
         in_alt_screen := a, bracketed_paste_mode := b }, []) := by
  simp only [isPlainChar, Bool.not_eq_true', Bool.or_eq_false_iff,
    decide_eq_false_iff_not] at h
  obtain ⟨⟨⟨⟨_, h1⟩, h2⟩, h3⟩, h4⟩ := h
  simp [textStep, h1, h2, h3, h4, Nat.sub_self, List.set_append]

/-- Writing a whole plain segment with the cursor at the end of the
buffer appends it, emitting no line. -/
theorem handleText_plain (seg : List Char) :
    ∀ (buf : List Char) (a b : Bool), (∀ c ∈ seg, isPlainChar c = true) →
      handleText
        { cursor_x := buf.length, buffer := buf, in_alt_screen := a,
          bracketed_paste_mode := b } seg =
        ({ cursor_x := (buf ++ seg).length, buffer := buf ++ seg,
           in_alt_screen := a, bracketed_paste_mode := b }, []) := by
  induction seg with
  | nil => intro buf a b _; simp [handleText]
  | cons c r ih =>
      intro buf a b h
      have hc := h c (List.mem_cons_self _ _)
      have hr : ∀ x ∈ r, isPlainChar x = true :=
        fun x hx => h x (List.mem_cons_of_mem _ hx)
      rw [handleText_cons, textStep_write buf a b c hc]
      have := ih (buf ++ [c]) a b hr
      rw [show (buf ++ [c]).length = buf.length + 1 by simp] at this
      rw [this]
      simp

/-- A line feed flushes the trimmed buffer (if non-empty) and resets
buffer and cursor. -/
theorem handleText_lf (n : Nat) (buf : List Char) (a b : Bool) :
    handleText
      { cursor_x := n, buffer := buf, in_alt_screen := a,
        bracketed_paste_mode := b } [ '\n'] =
      ({ cursor_x := 0, buffer := [], in_alt_screen := a,
         bracketed_paste_mode := b },
       if rstrip buf ≠ [] then [String.mk (rstrip buf)] else []) := by
  simp [handleText, textStep]

/-- Feeding plain segments, each closed by a line feed, from a fresh
line emits exactly the non-empty trimmed segments. -/
theorem handleText_joinLF (segs : List (List Char)) :
    ∀ (a b : Bool), (∀ seg ∈ segs, ∀ c ∈ seg, isPlainChar c = true) →
      handleText
        { cursor_x := 0, buffer := [], in_alt_screen := a,
          bracketed_paste_mode := b } (joinLF segs) =
        ({ cursor_x := 0, buffer := [], in_alt_screen := a,
           bracketed_paste_mode := b },
         ((segs.map (fun s => rstrip s)).filter (fun s => s ≠ [])).map
           (fun s => String.mk s)) := by
  induction segs with
  | nil => intro a b _; simp [joinLF, handleText]
  | cons seg rest ih =>
      intro a b h
      have hseg := h seg (List.mem_cons_self _ _)
      have hrest : ∀ s ∈ rest, ∀ c ∈ s, isPlainChar c = true :=
        fun s hs => h s (List.mem_cons_of_mem _ hs)
      have hjoin : joinLF (seg :: rest) = (seg ++ [ '\n']) ++ joinLF rest := by
        simp [joinLF]
      rw [hjoin, handleText_append, handleText_append]
      have h1 := handleText_plain seg [] a b hseg
      rw [show ([] : List Char).length = 0 from rfl] at h1
      rw [show (([] : List Char) ++ seg) = seg by simp] at h1
      rw [h1]
      rw [handleText_lf]
      rw [ih a b hrest]
      by_cases he : rstrip seg = []
      · simp [he, List.filter_cons]
      · simp [he, List.filter_cons]

/-- An escape followed by a character that opens no CSI, no OSC and no
two-character escape matches none of the regex alternatives. -/
theorem matchToken_stray (c : Char) (suf : List Char)
    (h1 : c ≠ '[') (h2 : c ≠ ']') (h3 : isTwoCharEsc c = false) :
    matchToken ('\x1b' :: c :: suf) = none := by
  simp [matchToken, matchCSI, matchOSC, matchTwo, h1, h2, h3]

/-- A chunk whose single escape character starts no recognised form is
one single text part. -/
theorem scanParts_strayEsc (x : List Char) :
    ∀ (c : Char) (suf : List Char) (acc : List Char) (fuel : Nat),
      (x ++ escCh :: c :: suf).length < fuel →
      (∀ d ∈ x, d ≠ escCh) → (∀ d ∈ suf, d ≠ escCh) →
      c ≠ escCh → c ≠ '[' → c ≠ ']' → isTwoCharEsc c = false →
      scanParts fuel acc (x ++ escCh :: c :: suf) =
        [acc.reverse ++ x ++ escCh :: c :: suf] := by
  induction x with
  | nil =>
      intro c suf acc fuel hf hx hs hc h1 h2 h3
      match fuel, hf with
      | fuel + 1, hf =>
          have hcs : ∀ d ∈ c :: suf, d ≠ escCh := by
            intro d hd
            rcases List.mem_cons.mp hd with h | h
            · subst h; exact hc
            · exact hs d h
          have hlen : (c :: suf).length < fuel := by
            simp only [List.nil_append, List.length_cons] at hf; simp; omega
          have hstep : scanParts (fuel + 1) acc (escCh :: c :: suf) =
              scanParts fuel (escCh :: acc) (c :: suf) := by
            simp [scanParts, matchToken_stray c suf h1 h2 h3, escCh]
          simp only [List.nil_append]
          rw [hstep, scanParts_noesc (c :: suf) fuel (escCh :: acc) hlen hcs]
          simp [escCh]
  | cons d x' ih =>
      intro c suf acc fuel hf hx hs hc h1 h2 h3
      match fuel, hf with
      | fuel + 1, hf =>
          have hd : d ≠ escCh := hx d (List.mem_cons_self _ _)
          have hx' : ∀ e ∈ x', e ≠ escCh :=
            fun e he => hx e (List.mem_cons_of_mem _ he)
          have hlen : (x' ++ escCh :: c :: suf).length < fuel := by
            simp only [List.cons_append, List.length_cons] at hf ⊢; omega
          simp only [List.cons_append, scanParts,
            if_neg (show ¬(d = '\x1b') from hd), List.append_eq]
          rw [ih c suf (d :: acc) fuel hlen hx' hs hc h1 h2 h3]
          simp

/-- Dropping a prefix can only shorten a list. -/
theorem dropWhileLen (l : List Char) (p : Char → Bool) :
    (l.dropWhile p).length ≤ l.length := by
  induction l with
  | nil => simp
  | cons c r ih =>
      by_cases h : p c
      · simp only [List.dropWhile_cons, h, if_pos]
        simp only [List.length_cons]
        omega
      · simp [List.dropWhile_cons, h]

/-- The OSC body matcher consumes at least its terminator. -/
theorem oscBody_length (l : List Char) :
    ∀ p, oscBody l = some p → p.2.length < l.length := by
  induction l with
  | nil => intro p hp; simp [oscBody] at hp
  | cons c r ih =>
      intro p hp
      simp only [oscBody] at hp
      by_cases h1 : c = '\x07'
      · rw [if_pos h1] at hp
        cases hp
        simp
      · rw [if_neg h1] at hp
        by_cases h2 : c = '\x1b' ∧ r.head? = some '\\'
        · rw [if_pos h2] at hp
          cases hp
          have : r.tail.length ≤ r.length := by
            cases r <;> simp
          simp only [List.length_cons]
          omega
        · rw [if_neg h2] at hp
          by_cases h3 : c = '\n'
          · rw [if_pos h3] at hp; cases hp
          · rw [if_neg h3] at hp
            cases ho : oscBody r with
            | none => rw [ho] at hp; cases hp
            | some q =>
                rw [ho] at hp
                cases hp
                have := ih q ho
                simp only [List.length_cons]
                omega

/-- A matched token consumes at least one character of the input. -/
theorem matchToken_length (l : List Char) :
    ∀ p, matchToken l = some p → p.2.length < l.length := by
  intro p hp
  unfold matchToken at hp
  cases hcsi : matchCSI l with
  | some q =>
      rw [hcsi] at hp
      cases hp
      match l, hcsi with
      | a :: b :: rest, hcsi =>
          simp only [matchCSI] at hcsi
          by_cases hab : a = '\x1b' ∧ b = '['
          · rw [if_pos hab] at hcsi
            cases hd : rest.dropWhile isCsiParam with
            | nil => rw [hd] at hcsi; cases hcsi
            | cons f r2 =>
                rw [hd] at hcsi
                dsimp only [] at hcsi
                by_cases hf : isCsiFinal f
                · rw [if_pos hf] at hcsi
                  cases hcsi
                  have h1 : (f :: r2).length ≤ rest.length := by
                    rw [← hd]
                    exact dropWhileLen rest isCsiParam
                  simp only [List.length_cons] at h1 ⊢
                  omega
                · rw [if_neg hf] at hcsi; cases hcsi
          · rw [if_neg hab] at hcsi; cases hcsi
  | none =>
      rw [hcsi] at hp
      cases hosc : matchOSC l with
      | some q =>
          rw [hosc] at hp
          cases hp
          match l, hosc with
          | a :: b :: rest, hosc =>
              simp only [matchOSC] at hosc
              by_cases hab : a = '\x1b' ∧ b = ']'
              · rw [if_pos hab] at hosc
                cases hd : rest.dropWhile Char.isDigit with
                | nil => rw [hd] at hosc; cases hosc
                | cons s0 r2 =>
                    rw [hd] at hosc
                    dsimp only [] at hosc
                    by_cases hs0 : s0 = ';'
                    · rw [if_pos hs0] at hosc
                      cases hb : oscBody r2 with
                      | none => rw [hb] at hosc; cases hosc
                      | some q2 =>
                          rw [hb] at hosc
                          cases hosc
                          have h1 := oscBody_length r2 q2 hb
                          have h2 : (s0 :: r2).length ≤ rest.length := by
                            rw [← hd]
                            exact dropWhileLen rest Char.isDigit
                          simp only [List.length_cons] at h1 h2 ⊢
                          omega
                    · rw [if_neg hs0] at hosc; cases hosc
              · rw [if_neg hab] at hosc; cases hosc
      | none =>
          rw [hosc] at hp
          match l, hp with
          | a :: b :: r, hp =>
              simp only [matchTwo] at hp
              by_cases hab : a = '\x1b' ∧ isTwoCharEsc b
              · rw [if_pos hab] at hp
                cases hp
                simp only [List.length_cons]
                omega
              · rw [if_neg hab] at hp; cases hp

/-- The scan does not depend on the fuel once it covers the input. -/
theorem scanParts_fuel (n : Nat) :
    ∀ (rest : List Char), rest.length ≤ n →
      ∀ (fuel fuel' : Nat) (acc : List Char),
        rest.length < fuel → rest.length < fuel' →
        scanParts fuel acc rest = scanParts fuel' acc rest := by
  induction n with
  | zero =>
      intro rest hr fuel fuel' acc hf hf'
      match rest, hr with
      | [], _ =>
          match fuel, hf, fuel', hf' with
          | f + 1, _, f' + 1, _ => simp [scanParts]
  | succ n ih =>
      intro rest hr fuel fuel' acc hf hf'
      match rest with
      | [] =>
          match fuel, hf, fuel', hf' with
          | f + 1, _, f' + 1, _ => simp [scanParts]
      | c :: r =>
          match fuel, hf, fuel', hf' with
          | f + 1, hf, f' + 1, hf' =>
              simp only [List.length_cons] at hf hf' hr
              by_cases hc : c = '\x1b'
              · simp only [scanParts, if_pos hc]
                cases hm : matchToken (c :: r) with
                | some q =>
                    obtain ⟨tok, rest2⟩ := q
                    have hlen := matchToken_length (c :: r) (tok, rest2) hm
                    simp only [List.length_cons] at hlen
                    simp only []
                    rw [ih rest2 (by omega) f f' [] (by omega) (by omega)]
                | none =>
                    exact ih r (by omega) f f' (c :: acc) (by omega) (by omega)
              · simp only [scanParts, if_neg hc]
                exact ih r (by omega) f f' (c :: acc) (by omega) (by omega)

/-- The text accumulator only prepends to the first scanned part. -/
theorem scanParts_acc (rest : List Char) :
    ∀ fuel : Nat, ∃ p ps, scanParts fuel [] rest = p :: ps ∧
      ∀ acc : List Char, scanParts fuel acc rest = (acc.reverse ++ p) :: ps := by
  induction rest with
  | nil =>
      intro fuel
      match fuel with
      | 0 => exact ⟨[], [], rfl, fun acc => by simp [scanParts]⟩
      | f + 1 => exact ⟨[], [], rfl, fun acc => by simp [scanParts]⟩
  | cons c r ih =>
      intro fuel
      match fuel with
      | 0 => exact ⟨c :: r, [], rfl, fun acc => by simp [scanParts]⟩
      | f + 1 =>
          by_cases hc : c = '\x1b'
          · cases hm : matchToken (c :: r) with
            | some q =>
                obtain ⟨tok, rest2⟩ := q
                refine ⟨[], tok :: scanParts f [] rest2, ?_, fun acc => ?_⟩
                · simp [scanParts, if_pos hc, hm]
                · simp [scanParts, if_pos hc, hm]
            | none =>
                obtain ⟨p, ps, h1, h2⟩ := ih f
                refine ⟨c :: p, ps, ?_, fun acc => ?_⟩
                · simp only [scanParts, if_pos hc, hm]
                  rw [h2 [c]]
                  simp
                · simp only [scanParts, if_pos hc, hm]
                  rw [h2 (c :: acc)]
                  simp
          · obtain ⟨p, ps, h1, h2⟩ := ih f
            refine ⟨c :: p, ps, ?_, fun acc => ?_⟩
            · simp only [scanParts, if_neg hc]
              rw [h2 [c]]
              simp
            · simp only [scanParts, if_neg hc]
              rw [h2 (c :: acc)]
              simp

/-- Prepending a non-escape character extends the first (text) part. -/
theorem splitParts_cons_noesc (c : Char) (s : List Char) (hc : c ≠ escCh) :
    ∃ p ps, splitParts s = p :: ps ∧ splitParts (c :: s) = (c :: p) :: ps := by
  obtain ⟨p, ps, h1, h2⟩ := scanParts_acc s (s.length + 1)
  refine ⟨p, ps, h1, ?_⟩
  unfold splitParts
  simp only [List.length_cons]
  have hc2 : ¬(c = '\x1b') := hc
  have hstep : scanParts (s.length + 1 + 1) [] (c :: s) =
      scanParts (s.length + 1) [c] s := by
    simp [scanParts, hc2]
  rw [hstep, h2 [c]]
  simp

/-- CSI parameter bytes are not the escape character. -/
theorem isCsiParam_ne_esc (c : Char) (h : isCsiParam c = true) : c ≠ escCh := by
  intro he
  subst he
  revert h
  decide

/-- CSI final bytes are not the escape character. -/
theorem isCsiFinal_ne_esc (c : Char) (h : isCsiFinal c = true) : c ≠ escCh := by
  intro he
  subst he
  revert h
  decide

/-- The parameter and final byte classes are disjoint, so the greedy
parameter run stops exactly at the final byte. -/
theorem isCsiFinal_not_param (c : Char) (h : isCsiFinal c = true) :
    isCsiParam c = false := by
  simp only [isCsiFinal, Bool.and_eq_true, decide_eq_true_eq] at h
  have h1 : c ≠ ';' := by intro he; rw [he] at h; revert h; decide
  have h2 : c ≠ '?' := by intro he; rw [he] at h; revert h; decide
  have h3 : ¬(c.toNat ≤ 57) := by omega
  simp [isCsiParam, h1, h2, h3]

/-- `takeWhile` passes over a prefix it accepts wholly. -/
theorem takeWhileAll (l m : List Char) (p : Char → Bool)
    (h : ∀ x ∈ l, p x = true) : (l ++ m).takeWhile p = l ++ m.takeWhile p := by
  induction l with
  | nil => simp
  | cons c r ih =>
      simp [List.takeWhile_cons, h c (List.mem_cons_self _ _),
        ih fun x hx => h x (List.mem_cons_of_mem _ hx)]

/-- `dropWhile` passes over a prefix it accepts wholly. -/
theorem dropWhileAll (l m : List Char) (p : Char → Bool)
    (h : ∀ x ∈ l, p x = true) : (l ++ m).dropWhile p = m.dropWhile p := by
  induction l with
  | nil => simp
  | cons c r ih =>
      simp [List.dropWhile_cons, h c (List.mem_cons_self _ _),
        ih fun x hx => h x (List.mem_cons_of_mem _ hx)]

/-- A complete CSI sequence matches itself in front of any
continuation: CSI tokens are self-delimiting. -/
theorem matchCSI_self (ps : List Char) (f : Char) (rest : List Char)
    (hps : ∀ p ∈ ps, isCsiParam p = true) (hf : isCsiFinal f = true) :
    matchCSI (escCh :: '[' :: (ps ++ f :: rest)) =
      some (escCh :: '[' :: (ps ++ [f]), rest) := by
  have hdrop : (ps ++ f :: rest).dropWhile isCsiParam = f :: rest := by
    rw [dropWhileAll ps (f :: rest) isCsiParam hps]
    simp [List.dropWhile_cons, isCsiFinal_not_param f hf]
  have htake : (ps ++ f :: rest).takeWhile isCsiParam = ps := by
    rw [takeWhileAll ps (f :: rest) isCsiParam hps]
    simp [List.takeWhile_cons, isCsiFinal_not_param f hf]
  dsimp only [matchCSI]
  rw [if_pos (show escCh = '\x1b' ∧ '[' = '[' from ⟨rfl, rfl⟩), hdrop]
  dsimp only []
  rw [htake, if_pos hf]
  rfl

/-- One scan step over a matched token. -/
theorem scanParts_step_tok (fuel : Nat) (acc : List Char)
    (r tok rest2 : List Char)
    (hm : matchToken ('\x1b' :: r) = some (tok, rest2)) :
    scanParts (fuel + 1) acc ('\x1b' :: r) =
      acc.reverse :: tok :: scanParts fuel [] rest2 := by
  simp [scanParts, hm]

/-- `splitParts` on a stream opening with a complete CSI sequence:
an empty text part, the token, then the parts of the remainder. -/
theorem splitParts_tok (ps : List Char) (f : Char) (rest : List Char)
    (hps : ∀ p ∈ ps, isCsiParam p = true) (hf : isCsiFinal f = true) :
    splitParts (escCh :: '[' :: (ps ++ f :: rest)) =
      [] :: (escCh :: '[' :: (ps ++ [f])) :: splitParts rest := by
  have hm : matchToken ('\x1b' :: '[' :: (ps ++ f :: rest)) =
      some (escCh :: '[' :: (ps ++ [f]), rest) := by
    unfold matchToken
    rw [show ('\x1b' :: '[' :: (ps ++ f :: rest)) =
      (escCh :: '[' :: (ps ++ f :: rest)) from rfl,
      matchCSI_self ps f rest hps hf]
  have h0 : splitParts (escCh :: '[' :: (ps ++ f :: rest)) =
      scanParts ((escCh :: '[' :: (ps ++ f :: rest)).length + 1) []
        ('\x1b' :: ('[' :: (ps ++ f :: rest))) := rfl
  rw [h0, scanParts_step_tok _ [] _ _ _ hm]
  have hlen : rest.length < (escCh :: '[' :: (ps ++ f :: rest)).length := by
    simp
    omega
  rw [scanParts_fuel rest.length rest (by omega)
      ((escCh :: '[' :: (ps ++ f :: rest)).length) (rest.length + 1) []
      hlen (by omega)]
  simp [splitParts]

/-- Accumulator shift for `processParts`. -/
theorem processParts_acc (parts : List (List Char)) (st : VTState)
    (acc : List String) :
    parts.foldl
      (fun p part =>
        let q := processPart p.1 part
        (q.1, p.2 ++ q.2))
      (st, acc) =
    ((processParts st parts).1, acc ++ (processParts st parts).2) := by
  induction parts generalizing st acc with
  | nil => simp [processParts]
  | cons part rest ih =>
      simp only [processParts, List.foldl_cons]
      rw [ih (processPart st part).1 (acc ++ (processPart st part).2),
          ih (processPart st part).1 ([] ++ (processPart st part).2)]
      simp

/-- `processParts` on one part, unfolded. -/
theorem processParts_cons (st : VTState) (part : List Char)
    (rest : List (List Char)) :
    processParts st (part :: rest) =
      ((processParts (processPart st part).1 rest).1,
       (processPart st part).2 ++
         (processParts (processPart st part).1 rest).2) := by
  simp only [processParts, List.foldl_cons]
  exact (processParts_acc rest (processPart st part).1
    ([] ++ (processPart st part).2)).trans (by simp [processParts])

/-- CSI streams are closed under concatenation. -/
theorem CsiStream_append (u v : List Char) (hu : CsiStream u)
    (hv : CsiStream v) : CsiStream (u ++ v) := by
  induction hu with
  | nil => simpa using hv
  | ch c s hc _ ih => exact CsiStream.ch c (s ++ v) hc ih
  | tok ps f s hps hf _ ih =>
      have := CsiStream.tok ps f (s ++ v) hps hf ih
      simpa using this

/-- `process` on the empty chunk does nothing. -/
theorem process_nil (st : VTState) : process st [] = (st, []) := rfl

/-- The first part of a CSI stream never opens with an escape, so the
dispatcher treats it as text. -/
theorem splitParts_csi_head (s : List Char) (hs : CsiStream s) :
    ∃ p ps, splitParts s = p :: ps ∧
      ∀ st : VTState, processPart st p = handleText st p := by
  cases hs with
  | nil =>
      refine ⟨[], [], rfl, fun st => ?_⟩
      simp [processPart, handleText]
  | ch c s hc _ =>
      obtain ⟨p, ps, h1, h2⟩ := splitParts_cons_noesc c s hc
      refine ⟨c :: p, ps, h2, fun st => ?_⟩
      have hc2 : ¬(c = '\x1b') := hc
      simp [processPart, hc2]
  | tok ps f s hps hf _ =>
      rw [splitParts_tok ps f s hps hf]
      refine ⟨[], _, rfl, fun st => ?_⟩
      simp [processPart, handleText]

/-- Consuming one plain character commutes with `process` on CSI
streams. -/
theorem process_cons_noesc (st : VTState) (c : Char) (w : List Char)
    (hc : c ≠ escCh) (hw : CsiStream w) :
    process st (c :: w) =
      ((process (textStep st c).1 w).1,
       (textStep st c).2 ++ (process (textStep st c).1 w).2) := by
  obtain ⟨p, ps, h1, h2⟩ := splitParts_cons_noesc c w hc
  obtain ⟨p0, ps0, h10, h20⟩ := splitParts_csi_head w hw
  rw [h1] at h10
  injection h10 with e1 e2
  subst e1
  subst e2
  unfold process
  rw [h2, h1]
  rw [processParts_cons, processParts_cons]
  have hc2 : ¬(c = '\x1b') := hc
  have hpp : processPart st (c :: p) = handleText st (c :: p) := by
    simp [processPart, hc2]
  rw [hpp, handleText_cons, h20 (textStep st c).1]
  simp

/-- Consuming a complete CSI token commutes with `process`. -/
theorem process_tok (st : VTState) (ps : List Char) (f : Char)
    (s : List Char) (hps : ∀ p ∈ ps, isCsiParam p = true)
    (hf : isCsiFinal f = true) :
    process st (escCh :: '[' :: (ps ++ f :: s)) =
      ((process (handleCSI st (escCh :: '[' :: (ps ++ [f]))).1 s).1,
       (handleCSI st (escCh :: '[' :: (ps ++ [f]))).2 ++
         (process (handleCSI st (escCh :: '[' :: (ps ++ [f]))).1 s).2) := by
  unfold process
  rw [splitParts_tok ps f s hps hf]
  rw [processParts_cons, processParts_cons]
  have h1 : processPart st [] = (st, []) := rfl
  have h2 : ∀ st' : VTState,
      processPart st' (escCh :: '[' :: (ps ++ [f])) =
        handleCSI st' (escCh :: '[' :: (ps ++ [f])) := fun st' => rfl
  rw [h1, h2]
  simp

/-- `process` composes over concatenation of CSI streams. -/
theorem process_append_csi (u v : List Char) (hu : CsiStream u)
    (hv : CsiStream v) :
    ∀ st : VTState, process st (u ++ v) =
      ((process (process st u).1 v).1,
       (process st u).2 ++ (process (process st u).1 v).2) := by
  induction hu with
  | nil => intro st; simp [process_nil]
  | ch c s hc hs ih =>
      intro st
      have happ : CsiStream (s ++ v) := CsiStream_append s v hs hv
      rw [show (c :: s) ++ v = c :: (s ++ v) from rfl]
      rw [process_cons_noesc st c (s ++ v) hc happ,
          process_cons_noesc st c s hc hs]
      rw [ih (textStep st c).1]
      simp
  | tok ps f s hps hf hs ih =>
      intro st
      rw [show (escCh :: '[' :: (ps ++ f :: s)) ++ v =
        escCh :: '[' :: (ps ++ f :: (s ++ v)) by simp]
      rw [process_tok st ps f (s ++ v) hps hf,
          process_tok st ps f s hps hf]
      rw [ih (handleCSI st (escCh :: '[' :: (ps ++ [f]))).1]
      simp

/-- What `rfindEsc` returns really is the last escape position. -/
theorem rfindEsc_some_spec (s : List Char) :
    ∀ k, rfindEsc s = some k →
      s[k]? = some escCh ∧ ∀ j, k < j → s[j]? ≠ some escCh := by
  induction s with
  | nil => intro k hk; simp [rfindEsc] at hk
  | cons c r ih =>
      intro k hk
      simp only [rfindEsc] at hk
      cases hr : rfindEsc r with
      | some k0 =>
          rw [hr] at hk
          cases hk
          obtain ⟨h1, h2⟩ := ih k0 hr
          refine ⟨by simpa using h1, fun j hj => ?_⟩
          match j, hj with
          | j + 1, hj =>
              have := h2 j (by omega)
              simpa using this
      | none =>
          rw [hr] at hk
          by_cases hc : c = '\x1b'
          · rw [if_pos hc] at hk
            cases hk
            have hresc : ∀ x ∈ r, x ≠ escCh := (rfindEsc_eq_none_iff r).mp hr
            refine ⟨by simpa using hc, fun j hj => ?_⟩
            match j, hj with
            | j + 1, _ =>
                intro hje
                have hx : escCh ∈ r := List.getElem?_mem (by simpa using hje)
                exact hresc escCh hx rfl
          · rw [if_neg hc] at hk
            cases hk

/-- A list holding an escape character has a last one. -/
theorem rfindEsc_exists (s : List Char) (k : Nat)
    (hk : s[k]? = some escCh) : ∃ k1, rfindEsc s = some k1 := by
  cases hr : rfindEsc s with
  | some k1 => exact ⟨k1, rfl⟩
  | none =>
      have := (rfindEsc_eq_none_iff s).mp hr escCh (List.getElem?_mem hk)
      exact absurd rfl this

/-- Dropping up to a known escape keeps the same last escape. -/
theorem rfindEsc_drop (s : List Char) (k k1 : Nat)
    (hk : s[k]? = some escCh) (hk1 : rfindEsc s = some k1) :
    k ≤ k1 ∧ rfindEsc (s.drop k) = some (k1 - k) := by
  obtain ⟨h1, h2⟩ := rfindEsc_some_spec s k1 hk1
  have hkle : k ≤ k1 := by
    by_contra hlt
    exact h2 k (by omega) hk
  refine ⟨hkle, ?_⟩
  apply rfindEsc_eq_last
  · rw [List.getElem?_drop]
    rw [show k + (k1 - k) = k1 by omega]
    exact h1
  · intro j hj
    rw [List.getElem?_drop]
    exact h2 (k + j) (by omega)

/-- The last escape of an append lies in the right part whenever that
part has one. -/
theorem rfindEsc_append (t1 t2 : List Char) (m : Nat)
    (h2 : rfindEsc t2 = some m) :
    rfindEsc (t1 ++ t2) = some (t1.length + m) := by
  obtain ⟨ha, hb⟩ := rfindEsc_some_spec t2 m h2
  apply rfindEsc_eq_last
  · rw [List.getElem?_append_right (by omega)]
    rw [show t1.length + m - t1.length = m by omega]
    exact ha
  · intro j hj
    rw [List.getElem?_append_right (by omega)]
    exact hb (j - t1.length) (by omega)

/-- Cutting a CSI stream at an escape position, or anywhere in its
escape-free prefix, yields two CSI streams. -/
theorem CsiStream_cut (s : List Char) (hs : CsiStream s) :
    ∀ n : Nat, ((∀ c ∈ s.take n, c ≠ escCh) ∨ s[n]? = some escCh) →
      CsiStream (s.take n) ∧ CsiStream (s.drop n) := by
  induction hs with
  | nil =>
      intro n _
      constructor
      · simpa using CsiStream.nil
      · simpa using CsiStream.nil
  | ch c s hc hcs ih =>
      intro n hn
      cases n with
      | zero =>
          constructor
          · simpa using CsiStream.nil
          · simpa using CsiStream.ch c s hc hcs
      | succ m =>
          have hn' : (∀ x ∈ s.take m, x ≠ escCh) ∨ s[m]? = some escCh := by
            rcases hn with h | h
            · left
              intro x hx
              exact h x (by simp [List.take_succ_cons, hx])
            · right
              simpa using h
          obtain ⟨h1, h2⟩ := ih m hn'
          constructor
          · rw [List.take_succ_cons]
            exact CsiStream.ch c _ hc h1
          · simpa [List.drop_succ_cons] using h2
  | tok ps f s hps hf hcs ih =>
      intro n hn
      cases n with
      | zero =>
          constructor
          · simpa using CsiStream.nil
          · simpa using CsiStream.tok ps f s hps hf hcs
      | succ n0 =>
          have hesc : (escCh :: '[' :: (ps ++ f :: s))[n0 + 1]? =
              some escCh := by
            rcases hn with h | h
            · exfalso
              exact h escCh (by simp [List.take_succ_cons]) rfl
            · exact h
          have hesc2 : (ps ++ f :: s)[n0 - 1]? = some escCh ∧ 1 ≤ n0 := by
            match n0, hesc with
            | 0, hesc => exact absurd (by simpa using hesc) (by decide)
            | n1 + 1, hesc => exact ⟨by simpa using hesc, by omega⟩
          obtain ⟨hesc2, hn0⟩ := hesc2
          set k := n0 - 1 with hkdef
          have hkcase : ps.length + 1 ≤ k := by
            by_contra hklt
            by_cases hkp : k < ps.length
            · have hp : ps[k]? = some escCh := by
                rw [← hesc2, List.getElem?_append]
                simp [hkp]
              have hmem : escCh ∈ ps := List.getElem?_mem hp
              exact isCsiParam_ne_esc escCh (hps escCh hmem) rfl
            · have hkeq : k = ps.length := by omega
              have h0 := hesc2
              rw [List.getElem?_append_right (by omega : ps.length ≤ k)] at h0
              rw [show k - ps.length = 0 by omega] at h0
              have hfe : f = escCh := by simpa using h0
              exact isCsiFinal_ne_esc f hf (by rw [hfe])
          have hm := hesc2
          rw [List.getElem?_append_right (by omega : ps.length ≤ k)] at hm
          rw [show k - ps.length = (k - ps.length - 1) + 1 by omega] at hm
          simp only [List.getElem?_cons_succ] at hm
          obtain ⟨h1, h2⟩ := ih (k - ps.length - 1) (Or.inr hm)
          have htake : (escCh :: '[' :: (ps ++ f :: s)).take (n0 + 1) =
              escCh :: '[' :: (ps ++ f :: s.take (k - ps.length - 1)) := by
            rw [show n0 + 1 = (k + 1) + 1 by omega]
            rw [List.take_succ_cons, List.take_succ_cons]
            rw [show k = ps.length + ((k - ps.length - 1) + 1) by omega]
            rw [List.take_append, List.take_succ_cons]
            rw [show ps.length + (k - ps.length - 1 + 1) - ps.length - 1 =
              k - ps.length - 1 by omega]
          have hdrop : (escCh :: '[' :: (ps ++ f :: s)).drop (n0 + 1) =
              s.drop (k - ps.length - 1) := by
            rw [show n0 + 1 = (k + 1) + 1 by omega]
            rw [List.drop_succ_cons, List.drop_succ_cons]
            rw [show k = ps.length + ((k - ps.length - 1) + 1) by omega]
            rw [List.drop_append, List.drop_succ_cons]
            rw [show ps.length + (k - ps.length - 1 + 1) - ps.length - 1 =
              k - ps.length - 1 by omega]
          constructor
          · rw [htake]
            exact CsiStream.tok ps f _ hps hf h1
          · rw [hdrop]
            exact h2

/-- One session-loop iteration, written out: the boundary heuristic
splits, the released part is processed (processing an empty release is
a no-op, so the `if to_process:` guard is invisible here). -/
theorem feedChunk_eval (s : SessState) (chunk : List Char) :
    feedChunk s chunk =
      ({ vt := (process s.vt (chunkStep s.pending chunk).1).1,
         pending := (chunkStep s.pending chunk).2 },
       (process s.vt (chunkStep s.pending chunk).1).2) := by
  unfold feedChunk
  by_cases h : (chunkStep s.pending chunk).1 = []
  · simp only [h, ne_eq, not_true_eq_false, if_false]
    rfl
  · simp [h]

/-- A one-chunk session, written out. -/
theorem runSession_single (a : List Char) :
    (runSession [a]).2 =
      (process initVT (chunkStep [] a).1).2 ++
        (process (process initVT (chunkStep [] a).1).1
          (chunkStep [] a).2).2 := by
  unfold runSession runChunks
  simp only [List.foldl_cons, List.foldl_nil]
  rw [feedChunk_eval]
  by_cases h : (chunkStep [] a).2 = []
  · rw [h]
    simp [process_nil]
  · simp [h]

/-- A two-chunk session, written out. -/
theorem runSession_two (a b : List Char) :
    (runSession [a, b]).2 =
      (process initVT (chunkStep [] a).1).2 ++
      ((process (process initVT (chunkStep [] a).1).1
          (chunkStep (chunkStep [] a).2 b).1).2 ++
       (process
          (process (process initVT (chunkStep [] a).1).1
            (chunkStep (chunkStep [] a).2 b).1).1
          (chunkStep (chunkStep [] a).2 b).2).2) := by
  unfold runSession runChunks
  simp only [List.foldl_cons, List.foldl_nil]
  rw [feedChunk_eval, feedChunk_eval]
  by_cases h : (chunkStep (chunkStep [] a).2 b).2 = []
  · rw [h]
    simp [process_nil]
  · simp [h]

/-! ## Claims -/

/-- C1, counterexample: from the initial state, `ESC [ ? 1 0 4 9 h`
emits the line `"\n[LOG: Entered Interactive Mode]"`: the synthetic
line carries a leading newline character, so it is not exactly the
string `"[LOG: Entered Interactive Mode]"` the claim demands. -/
theorem c1_counterexample :
    (process initVT ( "\x1b[?1049h").toList).2 =
      [ "\n[LOG: Entered Interactive Mode]"] ∧
    ( "\n[LOG: Entered Interactive Mode]" : String) ≠
      "[LOG: Entered Interactive Mode]" := by
  exact ⟨rfl, by decide⟩

/-- C1 (amended): for every prior state, `ESC [ ? 1 0 4 9 h` (or
`ESC [ ? 4 7 h`) emits exactly the completed line
`"\n[LOG: Entered Interactive Mode]"` (with its leading newline) and
sets `in_alt_screen` to `true`, and the corresponding `l` sequences
emit exactly `"\n[LOG: Exited Interactive Mode]"` and set
`in_alt_screen` to `false`. -/
theorem c1_alt_screen_toggle (st : VTState) :
    process st ( "\x1b[?1049h").toList =
      ({ st with in_alt_screen := true }, [enterAltLine]) ∧
    process st ( "\x1b[?47h").toList =
      ({ st with in_alt_screen := true }, [enterAltLine]) ∧
    process st ( "\x1b[?1049l").toList =
      ({ st with in_alt_screen := false }, [exitAltLine]) ∧
    process st ( "\x1b[?47l").toList =
      ({ st with in_alt_screen := false }, [exitAltLine]) :=
  ⟨rfl, rfl, rfl, rfl⟩

/-- C2, counterexample: the session whose single chunk is `"x"` ends
with the partial line `"x"` still buffered; the `finally:` block then
produces the two identical consecutive completed lines `"x"`, `"x"`
(one from each of its two `vt.flush()` calls) and appends **two**
records for them, because the session-end writes bypass the
deduplication check. -/
theorem c2_counterexample :
    cleanLog [( "x").toList] = [ "x", "x"] ∧
    ([ "x", "x"] : List String) ≠ [ "x"] := by
  exact ⟨rfl, by decide⟩

/-- C2 (amended): in the main loop the deduplicating writer drops the
second of two identical consecutive completed lines — an adjacent
duplicate contributes no record — but the lines of the final
session-end flush are appended without deduplication, so the final
buffered partial line yields two identical consecutive records. -/
theorem c2_dedup_adjacent :
    (∀ (last : Option String) (a : String) (rest : List String),
        dedupWrite last (a :: a :: rest) = dedupWrite last (a :: rest)) ∧
    sessionEndLines
        { cursor_x := 1, buffer := [ 'x'], in_alt_screen := false,
          bracketed_paste_mode := false } [] = [ "x", "x"] := by
  constructor
  · intro last a rest
    by_cases h : some a = last
    · simp [dedupWrite, h]
    · simp [dedupWrite, h]
  · rfl

/-- C3, counterexample: the 19-character stream
`"\x1b]0;a\x1bQb\x07hello\x1b[5C\n"` fed as one chunk produces the
single completed line `"hello"`, but split at offset 7 — which lies
only 2 characters past the escape at index 5, well within the
256-character window the claim allows — it produces **no** lines: the
split makes the boundary buffer cut the stream at the escape inside
the OSC sequence, and the resulting part that opens with a stray
escape is dropped whole, `"hello"` included. -/
theorem c3_counterexample :
    (runSession [( "\x1b]0;a\x1bQb\x07hello\x1b[5C\n").toList]).2 =
      [ "hello"] ∧
    (runSession [(( "\x1b]0;a\x1bQb\x07hello\x1b[5C\n").toList).take 7,
                 (( "\x1b]0;a\x1bQb\x07hello\x1b[5C\n").toList).drop 7]).2 =
      [] ∧
    rfindEsc ((( "\x1b]0;a\x1bQb\x07hello\x1b[5C\n").toList).take 7) =
      some 5 ∧
    ([ "hello"] : List String) ≠ [] := by
  exact ⟨rfl, rfl, by decide, by decide⟩

/-- C3 (amended): splitting a stream into two chunks at any offset and
feeding the chunks through the chunk boundary buffer and state machine
(with the final processing of leftover pending text) produces the same
completed-line sequence as feeding the stream as one single chunk,
provided every escape character in the stream opens a complete CSI
sequence and the split does not land more than 256 characters past the
last escape character before it (the released first chunk satisfies
the boundary buffer's window condition).  With other escape forms
present the claim fails even within its 256-character proviso, as the
counterexample shows. -/
theorem c3_split_equiv (s : List Char) (i : Nat) (hs : CsiStream s)
    (hwin : splitWithinWindow (s.take i) = true) :
    (runSession [s.take i, s.drop i]).2 = (runSession [s]).2 := by
  have h00 : s.take i ++ s.drop i = s := List.take_append_drop i s
  have hlen00 : (s.take i).length + (s.drop i).length = s.length := by
    simp only [List.length_take, List.length_drop]
    omega
  rw [runSession_two, runSession_single]
  cases hf1 : rfindEsc (s.take i) with
  | none =>
      have he1 : ∀ c ∈ s.take i, c ≠ escCh := (rfindEsc_eq_none_iff _).mp hf1
      have hcut := CsiStream_cut s hs i (Or.inl he1)
      have hcs1 : chunkStep [] (s.take i) = (s.take i, []) := by
        unfold chunkStep
        simp only [List.nil_append, hf1]
      cases hf2 : rfindEsc (s.drop i) with
      | none =>
          have he2 := (rfindEsc_eq_none_iff _).mp hf2
          have hfs : rfindEsc s = none := by
            apply (rfindEsc_eq_none_iff s).mpr
            intro c hc
            rw [← h00] at hc
            rcases List.mem_append.mp hc with h | h
            · exact he1 c h
            · exact he2 c h
          have hcs2 : chunkStep [] (s.drop i) = (s.drop i, []) := by
            unfold chunkStep
            simp only [List.nil_append, hf2]
          have hcsA : chunkStep [] s = (s, []) := by
            unfold chunkStep
            simp only [List.nil_append, hfs]
          simp only [hcs1, hcs2, hcsA, process_nil]
          have hcomp := process_append_csi (s.take i) (s.drop i)
            hcut.1 hcut.2 initVT
          rw [h00] at hcomp
          rw [hcomp]
          simp
      | some m =>
          have hfs : rfindEsc s = some ((s.take i).length + m) := by
            have h := rfindEsc_append (s.take i) (s.drop i) m hf2
            rw [h00] at h
            exact h
          by_cases hbig : (s.drop i).length - m > 256
          · have hcs2 : chunkStep [] (s.drop i) = (s.drop i, []) := by
              unfold chunkStep
              simp only [List.nil_append, hf2]
              rw [if_pos (by omega)]
            have hcsA : chunkStep [] s = (s, []) := by
              unfold chunkStep
              simp only [List.nil_append, hfs]
              rw [if_pos (by omega)]
            simp only [hcs1, hcs2, hcsA, process_nil]
            have hcomp := process_append_csi (s.take i) (s.drop i)
              hcut.1 hcut.2 initVT
            rw [h00] at hcomp
            rw [hcomp]
            simp
          · have hcs2 : chunkStep [] (s.drop i) =
                ((s.drop i).take m, (s.drop i).drop m) := by
              unfold chunkStep
              simp only [List.nil_append, hf2]
              rw [if_neg (by omega)]
            have hcsA : chunkStep [] s =
                (s.take ((s.take i).length + m),
                 s.drop ((s.take i).length + m)) := by
              unfold chunkStep
              simp only [List.nil_append, hfs]
              rw [if_neg (by omega)]
            have hid1 : s.take ((s.take i).length + m) =
                s.take i ++ (s.drop i).take m := by
              have h : (s.take i ++ s.drop i).take ((s.take i).length + m) =
                  s.take i ++ (s.drop i).take m := by
                rw [List.take_append]
              rw [h00] at h
              exact h
            have hid2 : s.drop ((s.take i).length + m) =
                (s.drop i).drop m := by
              have h : (s.take i ++ s.drop i).drop ((s.take i).length + m) =
                  (s.drop i).drop m := by
                rw [List.drop_append]
              rw [h00] at h
              exact h
            have hesc_m : (s.drop i)[m]? = some escCh :=
              (rfindEsc_some_spec _ m hf2).1
            have hcut2 := CsiStream_cut (s.drop i) hcut.2 m (Or.inr hesc_m)
            simp only [hcs1, hcs2, hcsA, hid1, hid2]
            have hcomp := process_append_csi (s.take i) ((s.drop i).take m)
              hcut.1 hcut2.1 initVT
            rw [hcomp]
            simp
  | some k =>
      have hwin2 : (s.take i).length - k ≤ 256 := by
        unfold splitWithinWindow at hwin
        rw [hf1] at hwin
        simpa using hwin
      have hcs1 : chunkStep [] (s.take i) =
          ((s.take i).take k, (s.take i).drop k) := by
        unfold chunkStep
        simp only [List.nil_append, hf1]
        rw [if_neg (by omega)]
      have hspec1 := rfindEsc_some_spec _ k hf1
      have hk_lt : k < (s.take i).length := by
        by_contra hh
        have h1 := hspec1.1
        rw [List.getElem?_eq_none (by omega)] at h1
        cases h1
      have hki : k < i := by
        have : (s.take i).length ≤ i := by simp
        omega
      have hsk : s[k]? = some escCh := by
        have h1 := hspec1.1
        rw [List.getElem?_take] at h1
        simpa [hki] using h1
      have hid_tk : (s.take i).take k = s.take k := by
        rw [List.take_take]
        congr 1
        omega
      have hid_dk : (s.take i).drop k ++ s.drop i = s.drop k := by
        rw [List.drop_take]
        have hdd : s.drop i = (s.drop k).drop (i - k) := by
          rw [List.drop_drop]
          congr 1
          omega
        rw [hdd, List.take_append_drop]
      obtain ⟨k1, hfsk1⟩ := rfindEsc_exists s k hsk
      obtain ⟨hk_le_k1, hdropfind⟩ := rfindEsc_drop s k k1 hsk hfsk1
      have hcutk := CsiStream_cut s hs k (Or.inr hsk)
      by_cases hbig : s.length - k1 > 256
      · have hcs2 : chunkStep ((s.take i).drop k) (s.drop i) =
            (s.drop k, []) := by
          simp only [chunkStep]
          rw [hid_dk, hdropfind]
          dsimp only []
          rw [if_pos (by simp; omega)]
        have hcsA : chunkStep [] s = (s, []) := by
          unfold chunkStep
          simp only [List.nil_append, hfsk1]
          rw [if_pos (by omega)]
        simp only [hcs1, hcs2, hcsA, hid_tk, process_nil]
        have hcomp := process_append_csi (s.take k) (s.drop k)
          hcutk.1 hcutk.2 initVT
        rw [List.take_append_drop] at hcomp
        rw [hcomp]
        simp
      · have hcs2 : chunkStep ((s.take i).drop k) (s.drop i) =
            ((s.drop k).take (k1 - k), (s.drop k).drop (k1 - k)) := by
          simp only [chunkStep]
          rw [hid_dk, hdropfind]
          dsimp only []
          rw [if_neg (by simp; omega)]
        have hcsA : chunkStep [] s = (s.take k1, s.drop k1) := by
          unfold chunkStep
          simp only [List.nil_append, hfsk1]
          rw [if_neg (by omega)]
        have hid3 : s.take k1 = s.take k ++ (s.drop k).take (k1 - k) := by
          conv_lhs => rw [show k1 = k + (k1 - k) by omega, List.take_add]
        have hid4 : s.drop k1 = (s.drop k).drop (k1 - k) := by
          rw [List.drop_drop]
          congr 1
          omega
        have hesc2 : (s.drop k)[k1 - k]? = some escCh :=
          (rfindEsc_some_spec _ _ hdropfind).1
        have hcutk2 := CsiStream_cut (s.drop k) hcutk.2 (k1 - k)
          (Or.inr hesc2)
        simp only [hcs1, hcs2, hcsA, hid_tk, hid3, hid4]
        have hcomp := process_append_csi (s.take k)
          ((s.drop k).take (k1 - k)) hcutk.1 hcutk2.1 initVT
        rw [hcomp]
        simp

/-- C3, witness: a stream with one complete CSI sequence between plain
text, split at offset 3 (inside the CSI sequence); both runs yield
`"a"`, `"b"`. -/
theorem c3_witness :
    (runSession [([ 'a', escCh, '[', 'K', '\n', 'b', '\n']).take 3,
                 ([ 'a', escCh, '[', 'K', '\n', 'b', '\n']).drop 3]).2 =
      [ "a", "b"] ∧
    (runSession [[ 'a', escCh, '[', 'K', '\n', 'b', '\n']]).2 =
      [ "a", "b"] := by
  constructor
  · exact (c3_split_equiv [ 'a', escCh, '[', 'K', '\n', 'b', '\n'] 3
      (CsiStream.ch 'a' _ (by decide)
        (CsiStream.tok [] 'K' [ '\n', 'b', '\n'] (by simp) (by decide)
          (CsiStream.ch '\n' _ (by decide)
            (CsiStream.ch 'b' _ (by decide)
              (CsiStream.ch '\n' _ (by decide) CsiStream.nil)))))
      (by decide)).trans (by decide)
  · exact rfl

/-- C4: the chunk boundary buffer. With `b` the pending string followed
by the newly decoded text: if `b` has no escape character the whole of
`b` is released and nothing stays pending; otherwise, with `k` the
index of the last escape character, everything is released when
`length - k > 256`, and otherwise the prefix before `k` is released
and the suffix from `k` on stays pending. -/
theorem c4_chunk_boundary (pending t : List Char) :
    ((∀ c ∈ pending ++ t, c ≠ escCh) →
      chunkStep pending t = (pending ++ t, [])) ∧
    (∀ k : Nat, (pending ++ t)[k]? = some escCh →
      (∀ j : Fin (pending ++ t).length, k < j.val →
        (pending ++ t).get j ≠ escCh) →
      ((pending ++ t).length - k > 256 →
        chunkStep pending t = (pending ++ t, [])) ∧
      ((pending ++ t).length - k ≤ 256 →
        chunkStep pending t =
          ((pending ++ t).take k, (pending ++ t).drop k))) := by
  constructor
  · intro h
    have : rfindEsc (pending ++ t) = none := (rfindEsc_eq_none_iff _).mpr h
    simp [chunkStep, this]
  · intro k hk hafter
    have hafter' : ∀ j, k < j → (pending ++ t)[j]? ≠ some escCh := by
      intro j hj
      by_cases hlt : j < (pending ++ t).length
      · have := hafter ⟨j, hlt⟩ hj
        rw [List.getElem?_eq_getElem hlt]
        simpa [List.get_eq_getElem] using this
      · rw [List.getElem?_eq_none (by omega)]
        simp
    have hfind : rfindEsc (pending ++ t) = some k :=
      rfindEsc_eq_last (pending ++ t) k hk hafter'
    constructor
    · intro hgt
      simp only [List.length_append] at hgt
      simp [chunkStep, hfind]
      omega
    · intro hle
      simp only [List.length_append] at hle
      simp [chunkStep, hfind]
      omega

/-- C4, witness: the no-escape case on `"a" / "b"`, and the last-escape
case on pending `"a\x1b"` with new text `"b"`, whose last escape sits
at index 1 with 2 ≤ 256 characters from it to the end, so `"a"` is
released and `"\x1bb"` stays pending. -/
theorem c4_witness :
    chunkStep [ 'a'] [ 'b'] = ([ 'a', 'b'], []) ∧
    chunkStep [ 'a', '\x1b'] [ 'b'] = ([ 'a'], [ '\x1b', 'b']) := by
  constructor
  · exact ((c4_chunk_boundary [ 'a'] [ 'b']).1 (by decide)).trans (by decide)
  · exact (((c4_chunk_boundary [ 'a', '\x1b'] [ 'b']).2 1 (by decide)
      (by decide)).2 (by decide)).trans (by decide)

/-- C5, counterexample: processing `"A\x1bQ\n"` from the initial state
emits the completed line `"A\x1bQ"`, which contains the escape
character: the stray escape was written into the line buffer, not
silently dropped. -/
theorem c5_counterexample :
    (process initVT ( "A\x1bQ\n").toList).2 = [ "A\x1bQ"] ∧
    escCh ∈ ( "A\x1bQ").toList := by
  exact ⟨rfl, by decide⟩

/-- C5 (amended): an escape character that starts no CSI, OSC or fixed
two-character escape is **not** silently dropped. When such a stray
escape opens its text part the entire part — the escape and all
following text up to the next recognised token or the chunk's end — is
discarded; when it is preceded by text in its part it is written into
the line buffer like an ordinary character (landing at the cursor
column), and so can appear in emitted completed lines. -/
theorem c5_stray_escape :
    (∀ (st : VTState) (c : Char) (suf : List Char),
        c ≠ escCh → c ≠ '[' → c ≠ ']' → isTwoCharEsc c = false →
        (∀ d ∈ suf, d ≠ escCh) →
        process st (escCh :: c :: suf) = (st, [])) ∧
    (∀ (st : VTState) (x : List Char) (c : Char) (suf : List Char),
        x ≠ [] → (∀ d ∈ x, d ≠ escCh) →
        c ≠ escCh → c ≠ '[' → c ≠ ']' → isTwoCharEsc c = false →
        (∀ d ∈ suf, d ≠ escCh) →
        process st (x ++ escCh :: c :: suf) =
          handleText st (x ++ escCh :: c :: suf)) ∧
    (∀ st : VTState,
        ((textStep st escCh).1.buffer)[st.cursor_x]? = some escCh ∧
        (textStep st escCh).2 = []) := by
  refine ⟨fun st c suf hc h1 h2 h3 hs => ?_, fun st x c suf hx0 hx hc h1 h2 h3 hs => ?_, fun st => ?_⟩
  · have hsplit : splitParts (escCh :: c :: suf) = [escCh :: c :: suf] := by
      unfold splitParts
      have := scanParts_strayEsc [] c suf []
        ((escCh :: c :: suf).length + 1) (by simp) (by simp) hs hc h1 h2 h3
      simpa using this
    unfold process processParts
    rw [hsplit]
    simp only [List.foldl_cons, List.foldl_nil]
    have hpp : processPart st (escCh :: c :: suf) = (st, []) := by
      simp [processPart, h1, show escCh = '\x1b' from rfl]
    rw [hpp]
    rfl
  · have hsplit : splitParts (x ++ escCh :: c :: suf) =
        [x ++ escCh :: c :: suf] := by
      unfold splitParts
      have := scanParts_strayEsc x c suf []
        ((x ++ escCh :: c :: suf).length + 1) (by simp) hx hs hc h1 h2 h3
      simpa using this
    unfold process processParts
    rw [hsplit]
    simp only [List.foldl_cons, List.foldl_nil]
    obtain ⟨d, x', rfl⟩ : ∃ d x', x = d :: x' := by
      cases x with
      | nil => exact absurd rfl hx0
      | cons d x' => exact ⟨d, x', rfl⟩
    have hd : d ≠ escCh := hx d (List.mem_cons_self _ _)
    have hpp : processPart st (d :: (x' ++ escCh :: c :: suf)) =
        handleText st (d :: (x' ++ escCh :: c :: suf)) := by
      simp [processPart, if_neg (show ¬(d = '\x1b') from hd)]
    simp only [List.cons_append]
    rw [hpp]
    simp [handleText]
  · constructor
    · simp only [textStep]
      rw [if_neg (by decide), if_neg (by decide), if_neg (by decide),
          if_neg (by decide)]
      by_cases hlen : st.buffer.length ≤ st.cursor_x
      · rw [if_pos hlen]
        exact List.getElem?_set_eq_of_lt escCh (by simp; omega)
      · rw [if_neg hlen]
        exact List.getElem?_set_eq_of_lt escCh (by omega)
    · simp only [textStep]
      rw [if_neg (by decide), if_neg (by decide), if_neg (by decide),
          if_neg (by decide)]

/-- C5, witness: the part-opening stray escape `"\x1bQh"` is discarded
whole, and `"A" ++ stray escape ++ "Q"` is handled as plain text. -/
theorem c5_witness :
    process initVT [escCh, 'Q', 'h'] = (initVT, []) ∧
    process initVT ([ 'A'] ++ escCh :: 'Q' :: []) =
      handleText initVT ([ 'A'] ++ escCh :: 'Q' :: []) := by
  constructor
  · exact c5_stray_escape.1 initVT 'Q' [ 'h'] (by decide) (by decide)
      (by decide) (by decide) (by decide)
  · exact c5_stray_escape.2.1 initVT [ 'A'] 'Q' [] (by decide) (by decide)
      (by decide) (by decide) (by decide) (by decide) (by decide)

/-- C6: processing a carriage return in alternate-screen mode flushes
the trimmed buffer as a completed line if non-empty and resets buffer
and cursor; outside alternate-screen mode it only resets the cursor and
emits nothing; and processing `"hello\r\n"` from the initial state
yields exactly the one completed line `"hello"`. -/
theorem c6_carriage_return :
    (∀ st : VTState, st.in_alt_screen = true →
      textStep st '\r' =
        ({ st with buffer := [], cursor_x := 0 },
         if rstrip st.buffer ≠ [] then [String.mk (rstrip st.buffer)]
         else [])) ∧
    (∀ st : VTState, st.in_alt_screen = false →
      textStep st '\r' = ({ st with cursor_x := 0 }, [])) ∧
    (process initVT ( "hello\r\n").toList).2 = [ "hello"] := by
  refine ⟨fun st h => ?_, fun st h => ?_, rfl⟩
  · simp [textStep, h]
  · simp [textStep, h]

/-- C6, witness: the alternate-screen case at the concrete state with
buffer `"hi"` and the plain-shell case at the same buffer. -/
theorem c6_witness :
    textStep
      { cursor_x := 2, buffer := [ 'h', 'i'], in_alt_screen := true,
        bracketed_paste_mode := false } '\r' =
      ({ cursor_x := 0, buffer := [], in_alt_screen := true,
         bracketed_paste_mode := false }, [ "hi"]) ∧
    textStep
      { cursor_x := 2, buffer := [ 'h', 'i'], in_alt_screen := false,
        bracketed_paste_mode := false } '\r' =
      ({ cursor_x := 0, buffer := [ 'h', 'i'], in_alt_screen := false,
         bracketed_paste_mode := false }, []) := by
  constructor
  · exact (c6_carriage_return.1 _ rfl).trans (by decide)
  · exact (c6_carriage_return.2.1 _ rfl).trans (by decide)

/-- C7, counterexample: the single whitespace-only segment `" "`
(plain characters only) followed by its line feed emits **no**
completed line, while the claim demands the trimmed segment, the empty
string, to be emitted. -/
theorem c7_counterexample :
    (∀ c ∈ [ ' '], isPlainChar c = true) ∧
    (process initVT (joinLF [[ ' ']])).2 = [] ∧
    ([[ ' ']].map (fun s => String.mk (rstrip s))) = [ ""] ∧
    ([] : List String) ≠ [ ""] := by
  exact ⟨by decide, rfl, by decide, by decide⟩

/-- C7 (amended): for input consisting of plain text segments each
terminated by a line feed (no escapes, carriage returns, backspaces or
bells), the completed lines emitted from the initial state are exactly
the trimmed segments in arrival order, **omitting segments that trim
to the empty string**. -/
theorem c7_plain_text_segments (segs : List (List Char))
    (h : ∀ seg ∈ segs, ∀ c ∈ seg, isPlainChar c = true) :
    (process initVT (joinLF segs)).2 =
      ((segs.map (fun s => rstrip s)).filter (fun s => s ≠ [])).map
        (fun s => String.mk s) := by
  have hesc : ∀ c ∈ joinLF segs, c ≠ escCh := by
    intro c hc
    rcases List.mem_flatten.mp hc with ⟨l, hl, hcl⟩
    rcases List.mem_map.mp hl with ⟨seg, hseg, rfl⟩
    rcases List.mem_append.mp hcl with h1 | h1
    · have := h seg hseg c h1
      simp [isPlainChar] at this
      intro hce; rw [hce] at this; exact absurd this.1 (by simp [escCh])
    · simp at h1
      rw [h1]; decide
  rw [process_noesc initVT (joinLF segs) hesc]
  have := handleText_joinLF segs false false h
  rw [show initVT =
    { cursor_x := 0, buffer := [], in_alt_screen := false,
      bracketed_paste_mode := false } from rfl]
  rw [this]

/-- C7, witness: the amended statement at the two segments
`"ab "` and `"  "`: the first trims to `"ab"`, the second trims away. -/
theorem c7_witness :
    (process initVT (joinLF [[ 'a', 'b', ' '], [ ' ', ' ']])).2 = [ "ab"] := by
  exact (c7_plain_text_segments [[ 'a', 'b', ' '], [ ' ', ' ']]
    (by decide)).trans (by decide)

/-- C8: from the initial state, `"foo"`, then two backspaces, then
`"bar\n"` emit exactly the one completed line `"fbar"`. -/
theorem c8_backspace_overwrite :
    (process initVT ( "foo").toList).2 ++
      (process (process initVT ( "foo").toList).1 [bsCh, bsCh]).2 ++
      (process
        (process (process initVT ( "foo").toList).1 [bsCh, bsCh]).1
        ( "bar\n").toList).2 = [ "fbar"] := rfl

/-- C9, counterexample: writing `'a'` from the initial state leaves a
buffer of length 1 with the cursor at column 1, so with `cursor` read
as the cursor column after the write (including its increment),
`len(ScreenBuffer) >= cursor + 1` fails on the very first write. -/
theorem c9_counterexample :
    ('a' ≠ '\r' ∧ 'a' ≠ '\n' ∧ 'a' ≠ '\x08' ∧ 'a' ≠ '\x07') ∧
    (textStep initVT 'a').1.buffer.length <
      (textStep initVT 'a').1.cursor_x + 1 := by
  exact ⟨by decide, by decide⟩

/-- C9 (amended): after any text-write character (any character other
than carriage return, line feed, backspace and bell) the buffer length
is at least the post-write cursor column — equivalently at least one
more than the column the character was written at, since the write
increments the cursor by one. -/
theorem c9_write_invariant (st : VTState) (c : Char)
    (h1 : c ≠ '\r') (h2 : c ≠ '\n') (h3 : c ≠ '\x08') (h4 : c ≠ '\x07') :
    (textStep st c).1.buffer.length ≥ (textStep st c).1.cursor_x ∧
    (textStep st c).1.cursor_x = st.cursor_x + 1 := by
  simp only [textStep, if_neg h1, if_neg h2, if_neg h3, if_neg h4]
  by_cases h : st.buffer.length ≤ st.cursor_x
  · simp [if_pos h]
    omega
  · simp [if_neg h]
    omega

/-- C9, witness: the amended invariant at the initial state writing `'a'`. -/
theorem c9_witness :
    (textStep initVT 'a').1.buffer.length ≥ (textStep initVT 'a').1.cursor_x ∧
    (textStep initVT 'a').1.cursor_x = initVT.cursor_x + 1 :=
  c9_write_invariant initVT 'a' (by decide) (by decide) (by decide) (by decide)

/-- C10: `flush` leaves the whole reconstruction state unchanged; on a
non-empty buffer it returns the trimmed buffer as one completed line
and a second consecutive call returns the same line again; and at
session end (with no pending text) the final buffered partial line is
written to the clean log twice. -/
theorem c10_flush_frame :
    (∀ st : VTState, (flushM st).1 = st) ∧
    (∀ st : VTState, st.buffer ≠ [] →
      (flushM st).2 = [String.mk (rstrip st.buffer)] ∧
      (flushM (flushM st).1).2 = (flushM st).2) ∧
    (∀ st : VTState, st.buffer ≠ [] →
      sessionEndLines st [] =
        [String.mk (rstrip st.buffer), String.mk (rstrip st.buffer)]) := by
  refine ⟨fun st => rfl, fun st h => ⟨?_, rfl⟩, fun st h => ?_⟩
  · simp [flushM, flushLines, h]
  · simp [sessionEndLines, flushM, flushLines, h]

/-- C10, witness: the flush frame property and the session-end double
write at the concrete state with buffer `"x "`. -/
theorem c10_witness :
    (flushM { cursor_x := 2, buffer := [ 'x', ' '], in_alt_screen := false,
              bracketed_paste_mode := false }).2 = [ "x"] ∧
    sessionEndLines
      { cursor_x := 2, buffer := [ 'x', ' '], in_alt_screen := false,
        bracketed_paste_mode := false } [] = [ "x", "x"] := by
  constructor
  · exact ((c10_flush_frame.2.1 _ (by decide)).1).trans (by decide)
  · exact (c10_flush_frame.2.2 _ (by decide)).trans (by decide)

end KaliTrace
